import Mathlib

/-!
Verification of the study-scheduler core
(`src/app/services/scheduler_service.py`).

Modelling conventions:
* Dates are natural-number day ordinals counted from a fixed Monday
  (0 = 2024-01-01, which is a Monday), so `weekday d = d % 7` with
  0 = Monday … 6 = Sunday, exactly as Python's `date.weekday()`;
  `current_date += timedelta(days=1)` becomes `d + 1`.
* Durations and time budgets are exact rationals (`ℚ`), matching the
  spec's treatment of durations as exact (possibly fractional) minute
  counts.
* The Python `while remaining_duration > 0` loop is rendered with an
  explicit fuel parameter: `none` means the fuel ran out; the
  termination theorem shows sufficient fuel always exists under the
  documented preconditions.
* `study_schedule` is a Python 3.7+ dict, i.e. an insertion-ordered
  association list from date to the list of entries appended for that
  date.
-/

/-- One input class: `[status, subject, duration]` (duration in minutes). -/
structure WorkItem where
  status : String
  title : String
  duration : ℚ
  deriving DecidableEq

/-- One schedule entry appended by `schedule_classes`:
`[status, title, scheduled_duration, original_duration]`. -/
structure ScheduleEntry where
  status : String
  title : String
  allocated : ℚ
  original : ℚ
  deriving DecidableEq

/-- The `study_schedule` dict: insertion-ordered map date ↦ entries. -/
abbrev Schedule := List (ℕ × List ScheduleEntry)

/-- `apply_multiplier`: scale every duration by the multiplier. -/
def apply_multiplier (classes : List WorkItem) (multiplier : ℚ) : List WorkItem :=
  classes.map (fun cls => ⟨cls.status, cls.title, cls.duration * multiplier⟩)

/-- `if current_date not in study_schedule: study_schedule[current_date] = []`
followed by `study_schedule[current_date].append(e)`: append `e` to the list
of the (first) pair with key `d`, or add a fresh key at the end. -/
def addEntry : Schedule → ℕ → ScheduleEntry → Schedule
  | [], d, e => [(d, [e])]
  | (k, es) :: rest, d, e =>
    if k = d then (k, es ++ [e]) :: rest else (k, es) :: addEntry rest d e

/-- The body of `schedule_classes` for one class: the
`while remaining_duration > 0` loop, with state
(`current_date`, `time_left`, `remaining_duration`, `study_schedule`).
Each recursive call is one loop iteration; `fuel` bounds the number of
iterations, `none` meaning the bound was hit. -/
def scheduleItem (sd : List ℕ) (L : ℚ) (c : WorkItem) :
    ℕ → ℕ → ℚ → ℚ → Schedule → Option (Schedule × ℕ × ℚ)
  | 0, _, _, _, _ => none
  | fuel + 1, d, t, rem, sched =>
    if 0 < rem then
      if d % 7 ∈ sd then
        if rem ≤ t then
          -- `time_left >= remaining_duration`: the class finishes today;
          -- the loop then exits (remaining = 0), after the end-of-body
          -- advance check `time_left == 0`.
          if t - rem = 0 then
            some (addEntry sched d ⟨c.status, c.title, rem, c.duration⟩, d + 1, L)
          else
            some (addEntry sched d ⟨c.status, c.title, rem, c.duration⟩, d, t - rem)
        else
          -- split: today's leftover `time_left` is scheduled, `time_left`
          -- becomes 0, so the advance check moves to the next day.
          scheduleItem sd L c fuel (d + 1) L (rem - t)
            (addEntry sched d ⟨c.status, c.title, t, c.duration⟩)
      else
        -- ineligible weekday: advance without consuming anything.
        scheduleItem sd L c fuel (d + 1) L rem sched
    else some (sched, d, t)

/-- The `for cls in classes` loop of `schedule_classes`, threading
(`current_date`, `time_left`, `study_schedule`) through `scheduleItem`. -/
def scheduleAll (sd : List ℕ) (L : ℚ) (fuel : ℕ) :
    List WorkItem → ℕ → ℚ → Schedule → Option (Schedule × ℕ × ℚ)
  | [], d, t, sched => some (sched, d, t)
  | c :: cs, d, t, sched =>
    match scheduleItem sd L c fuel d t c.duration sched with
    | none => none
    | some (sched', d', t') => scheduleAll sd L fuel cs d' t' sched'

/-- `schedule_classes(classes, start_date, study_days, daily_study_limit_hours)`:
`daily_study_limit_minutes = daily_study_limit_hours * 60`, the cursor starts
at `start_date` with a full day's budget, and the schedule dict starts empty. -/
def schedule_classes (fuel : ℕ) (classes : List WorkItem) (start_date : ℕ)
    (study_days : List ℕ) (daily_study_limit_hours : ℚ) : Option Schedule :=
  (scheduleAll study_days (daily_study_limit_hours * 60) fuel
      classes start_date (daily_study_limit_hours * 60) []).map
    (fun r => r.1)

/-- The dict lookup `study_schedule[d]` (and `[]` when `d` is absent). -/
def entriesAt : Schedule → ℕ → List ScheduleEntry
  | [], _ => []
  | (k, es) :: rest, d => if k = d then es else entriesAt rest d

/-- Sum of `allocated` over a list of entries. -/
def sumAlloc (es : List ScheduleEntry) : ℚ :=
  (es.map (fun e => e.allocated)).sum

/-- Sum of `allocated` over every entry of the whole schedule. -/
def totalAlloc (sched : Schedule) : ℚ :=
  (sched.map (fun p => sumAlloc p.2)).sum

/-! ### Basic lemmas about the schedule dictionary -/

theorem sumAlloc_append (es : List ScheduleEntry) (e : ScheduleEntry) :
    sumAlloc (es ++ [e]) = sumAlloc es + e.allocated := by
  simp [sumAlloc]

theorem totalAlloc_addEntry (s : Schedule) (d : ℕ) (e : ScheduleEntry) :
    totalAlloc (addEntry s d e) = totalAlloc s + e.allocated := by
  induction s with
  | nil => simp [addEntry, totalAlloc, sumAlloc]
  | cons p rest ih =>
    obtain ⟨k, es⟩ := p
    by_cases hk : k = d
    · simp [addEntry, hk, totalAlloc, sumAlloc_append]
      ring
    · simp only [addEntry, hk, if_false, totalAlloc, List.map_cons, List.sum_cons]
      have := ih
      simp only [totalAlloc] at this
      rw [this]
      ring

theorem mem_addEntry {s : Schedule} {d : ℕ} {e : ScheduleEntry}
    {p : ℕ × List ScheduleEntry} (hp : p ∈ addEntry s d e) :
    p ∈ s ∨ ∃ es, p = (d, es ++ [e]) ∧ ((d, es) ∈ s ∨ es = []) := by
  induction s with
  | nil =>
    simp only [addEntry, List.mem_singleton] at hp
    exact Or.inr ⟨[], by simpa using hp, Or.inr rfl⟩
  | cons q rest ih =>
    obtain ⟨k, es⟩ := q
    by_cases hk : k = d
    · simp only [addEntry, hk, if_true, List.mem_cons] at hp
      rcases hp with h | h
      · exact Or.inr ⟨es, by simpa [hk] using h, Or.inl (by simp [hk])⟩
      · exact Or.inl (List.mem_cons_of_mem _ h)
    · simp only [addEntry, hk, if_false, List.mem_cons] at hp
      rcases hp with h | h
      · exact Or.inl (by simp [h])
      · rcases ih h with h' | ⟨es', hes', h'⟩
        · exact Or.inl (List.mem_cons_of_mem _ h')
        · refine Or.inr ⟨es', hes', ?_⟩
          rcases h' with h' | h'
          · exact Or.inl (List.mem_cons_of_mem _ h')
          · exact Or.inr h'

theorem addEntry_keys (s : Schedule) (d : ℕ) (e : ScheduleEntry) :
    (addEntry s d e).map Prod.fst =
      if d ∈ s.map Prod.fst then s.map Prod.fst else s.map Prod.fst ++ [d] := by
  induction s with
  | nil => simp [addEntry]
  | cons q rest ih =>
    obtain ⟨k, es⟩ := q
    by_cases hk : k = d
    · simp [addEntry, hk]
    · by_cases hd : d ∈ rest.map Prod.fst
      · simp [addEntry, hk, hd, ih, Ne.symm hk]
      · simp [addEntry, hk, hd, ih, Ne.symm hk]

theorem entriesAt_addEntry (s : Schedule) (d : ℕ) (e : ScheduleEntry) (k : ℕ) :
    entriesAt (addEntry s d e) k =
      if k = d then entriesAt s k ++ [e] else entriesAt s k := by
  induction s with
  | nil =>
    by_cases hk : k = d
    · simp [addEntry, entriesAt, hk]
    · simp [addEntry, entriesAt, hk, Ne.symm hk]
  | cons q rest ih =>
    obtain ⟨k0, es⟩ := q
    by_cases h0 : k0 = d
    · subst h0
      by_cases hk : k = k0
      · simp [addEntry, entriesAt, hk]
      · simp [addEntry, entriesAt, hk, Ne.symm hk]
    · by_cases hk : k = k0
      · subst hk
        simp [addEntry, h0, entriesAt, Ne.symm h0, fun h : k = d => h0 h]
      · simp [addEntry, entriesAt, h0, hk, Ne.symm hk, ih]

/-! ### Per-item lemmas about the while loop -/

theorem scheduleItem_totalAlloc (sd : List ℕ) (L : ℚ) (c : WorkItem) :
    ∀ (fuel d : ℕ) (t rem : ℚ) (sched s' : Schedule) (d' : ℕ) (t' : ℚ),
      scheduleItem sd L c fuel d t rem sched = some (s', d', t') →
      0 ≤ rem → totalAlloc s' = totalAlloc sched + rem := by
  intro fuel
  induction fuel with
  | zero =>
    intro d t rem sched s' d' t' h
    simp [scheduleItem] at h
  | succ f ih =>
    intro d t rem sched s' d' t' h hrem
    simp only [scheduleItem] at h
    split_ifs at h with h1 h2 h3 h4
    · simp only [Option.some.injEq, Prod.mk.injEq] at h
      obtain ⟨hs, _, _⟩ := h
      rw [← hs, totalAlloc_addEntry]
    · simp only [Option.some.injEq, Prod.mk.injEq] at h
      obtain ⟨hs, _, _⟩ := h
      rw [← hs, totalAlloc_addEntry]
    · have ht : t < rem := not_le.1 h3
      have := ih _ _ _ _ _ _ _ h (by linarith)
      rw [this, totalAlloc_addEntry]
      ring
    · exact ih _ _ _ _ _ _ _ h hrem
    · have hr0 : rem = 0 := le_antisymm (not_lt.1 h1) hrem
      simp only [Option.some.injEq, Prod.mk.injEq] at h
      obtain ⟨hs, _, _⟩ := h
      rw [← hs, hr0, add_zero]

theorem mem_keys_addEntry {s : Schedule} {d : ℕ} {e : ScheduleEntry} {k : ℕ} :
    k ∈ (addEntry s d e).map Prod.fst ↔ k ∈ s.map Prod.fst ∨ k = d := by
  rw [addEntry_keys]
  split_ifs with h
  · constructor
    · exact fun hk => Or.inl hk
    · rintro (hk | rfl)
      · exact hk
      · exact h
  · simp [List.mem_append]

theorem chain_addEntry {s : Schedule} {d : ℕ} {e : ScheduleEntry}
    (hle : ∀ p ∈ s, p.1 ≤ d) (hch : List.Chain' (· < ·) (s.map Prod.fst)) :
    List.Chain' (· < ·) ((addEntry s d e).map Prod.fst) := by
  rw [addEntry_keys]
  split_ifs with h
  · exact hch
  · rw [List.chain'_append]
    refine ⟨hch, List.chain'_singleton d, ?_⟩
    intro x hx y hy
    simp only [List.head?_cons, Option.mem_def, Option.some.injEq] at hy
    subst hy
    have hxs : x ∈ s.map Prod.fst := List.mem_of_mem_getLast? hx
    obtain ⟨p, hp, hpx⟩ := List.mem_map.1 hxs
    have hxd : x ≤ d := hpx ▸ hle p hp
    exact lt_of_le_of_ne hxd (fun hxd' => h (hxd' ▸ hxs))

theorem scheduleItem_cursor_mono (sd : List ℕ) (L : ℚ) (c : WorkItem) :
    ∀ (fuel d : ℕ) (t rem : ℚ) (sched s' : Schedule) (d' : ℕ) (t' : ℚ),
      scheduleItem sd L c fuel d t rem sched = some (s', d', t') → d ≤ d' := by
  intro fuel
  induction fuel with
  | zero =>
    intro d t rem sched s' d' t' h
    simp [scheduleItem] at h
  | succ f ih =>
    intro d t rem sched s' d' t' h
    simp only [scheduleItem] at h
    split_ifs at h with h1 h2 h3 h4
    · simp only [Option.some.injEq, Prod.mk.injEq] at h
      omega
    · simp only [Option.some.injEq, Prod.mk.injEq] at h
      omega
    · have := ih _ _ _ _ _ _ _ h
      omega
    · have := ih _ _ _ _ _ _ _ h
      omega
    · simp only [Option.some.injEq, Prod.mk.injEq] at h
      omega

theorem scheduleItem_keys_chain (sd : List ℕ) (L : ℚ) (c : WorkItem) :
    ∀ (fuel d : ℕ) (t rem : ℚ) (sched s' : Schedule) (d' : ℕ) (t' : ℚ),
      scheduleItem sd L c fuel d t rem sched = some (s', d', t') →
      (∀ p ∈ sched, p.1 ≤ d) → List.Chain' (· < ·) (sched.map Prod.fst) →
      (∀ p ∈ s', p.1 ≤ d') ∧ List.Chain' (· < ·) (s'.map Prod.fst) := by
  intro fuel
  induction fuel with
  | zero =>
    intro d t rem sched s' d' t' h
    simp [scheduleItem] at h
  | succ f ih =>
    intro d t rem sched s' d' t' h hle hch
    simp only [scheduleItem] at h
    split_ifs at h with h1 h2 h3 h4
    · simp only [Option.some.injEq, Prod.mk.injEq] at h
      obtain ⟨hs, hd, _⟩ := h
      subst hs; subst hd
      refine ⟨?_, chain_addEntry hle hch⟩
      intro p hp
      rcases mem_addEntry hp with hp' | ⟨es, rfl, _⟩
      · exact le_trans (hle p hp') (by omega)
      · omega
    · simp only [Option.some.injEq, Prod.mk.injEq] at h
      obtain ⟨hs, hd, _⟩ := h
      subst hs; subst hd
      refine ⟨?_, chain_addEntry hle hch⟩
      intro p hp
      rcases mem_addEntry hp with hp' | ⟨es, rfl, _⟩
      · exact hle p hp'
      · omega
    · refine ih _ _ _ _ _ _ _ h ?_ (chain_addEntry hle hch)
      intro p hp
      rcases mem_addEntry hp with hp' | ⟨es, rfl, _⟩
      · exact le_trans (hle p hp') (by omega)
      · omega
    · refine ih _ _ _ _ _ _ _ h ?_ hch
      intro p hp
      exact le_trans (hle p hp) (by omega)
    · simp only [Option.some.injEq, Prod.mk.injEq] at h
      obtain ⟨hs, hd, _⟩ := h
      subst hs; subst hd
      exact ⟨hle, hch⟩

theorem scheduleItem_new_keys (sd : List ℕ) (L : ℚ) (c : WorkItem) :
    ∀ (fuel d : ℕ) (t rem : ℚ) (sched s' : Schedule) (d' : ℕ) (t' : ℚ),
      scheduleItem sd L c fuel d t rem sched = some (s', d', t') →
      ∀ k ∈ s'.map Prod.fst, k ∈ sched.map Prod.fst ∨ (d ≤ k ∧ k ≤ d') := by
  intro fuel
  induction fuel with
  | zero =>
    intro d t rem sched s' d' t' h
    simp [scheduleItem] at h
  | succ f ih =>
    intro d t rem sched s' d' t' h k hk
    simp only [scheduleItem] at h
    split_ifs at h with h1 h2 h3 h4
    · simp only [Option.some.injEq, Prod.mk.injEq] at h
      obtain ⟨hs, hd, _⟩ := h
      subst hs; subst hd
      rcases mem_keys_addEntry.1 hk with hk' | rfl
      · exact Or.inl hk'
      · exact Or.inr ⟨le_refl _, by omega⟩
    · simp only [Option.some.injEq, Prod.mk.injEq] at h
      obtain ⟨hs, hd, _⟩ := h
      subst hs; subst hd
      rcases mem_keys_addEntry.1 hk with hk' | rfl
      · exact Or.inl hk'
      · exact Or.inr ⟨le_refl _, le_refl _⟩
    · rcases ih _ _ _ _ _ _ _ h k hk with hk' | ⟨hd1, hd2⟩
      · rcases mem_keys_addEntry.1 hk' with hk'' | rfl
        · exact Or.inl hk''
        · exact Or.inr ⟨le_refl _, le_trans (by omega) (scheduleItem_cursor_mono _ _ _ _ _ _ _ _ _ _ _ h)⟩
      · exact Or.inr ⟨by omega, hd2⟩
    · rcases ih _ _ _ _ _ _ _ h k hk with hk' | ⟨hd1, hd2⟩
      · exact Or.inl hk'
      · exact Or.inr ⟨by omega, hd2⟩
    · simp only [Option.some.injEq, Prod.mk.injEq] at h
      obtain ⟨hs, hd, _⟩ := h
      subst hs; subst hd
      exact Or.inl hk

theorem scheduleItem_timeLeft (sd : List ℕ) (L : ℚ) (c : WorkItem) (hL : 0 < L) :
    ∀ (fuel d : ℕ) (t rem : ℚ) (sched s' : Schedule) (d' : ℕ) (t' : ℚ),
      scheduleItem sd L c fuel d t rem sched = some (s', d', t') →
      0 < t → t ≤ L → 0 < t' ∧ t' ≤ L := by
  intro fuel
  induction fuel with
  | zero =>
    intro d t rem sched s' d' t' h
    simp [scheduleItem] at h
  | succ f ih =>
    intro d t rem sched s' d' t' h ht htL
    simp only [scheduleItem] at h
    split_ifs at h with h1 h2 h3 h4
    · simp only [Option.some.injEq, Prod.mk.injEq] at h
      obtain ⟨_, _, hT⟩ := h
      subst hT
      exact ⟨hL, le_refl _⟩
    · simp only [Option.some.injEq, Prod.mk.injEq] at h
      obtain ⟨_, _, hT⟩ := h
      subst hT
      constructor
      · rcases lt_or_eq_of_le (sub_nonneg.2 h3) with hlt | heq
        · exact hlt
        · exact absurd heq.symm h4
      · linarith
    · exact ih _ _ _ _ _ _ _ h hL (le_refl _)
    · exact ih _ _ _ _ _ _ _ h hL (le_refl _)
    · simp only [Option.some.injEq, Prod.mk.injEq] at h
      obtain ⟨_, _, hT⟩ := h
      subst hT
      exact ⟨ht, htL⟩

theorem scheduleItem_eligible (sd : List ℕ) (L : ℚ) (c : WorkItem) :
    ∀ (fuel d : ℕ) (t rem : ℚ) (sched s' : Schedule) (d' : ℕ) (t' : ℚ),
      scheduleItem sd L c fuel d t rem sched = some (s', d', t') →
      (∀ p ∈ sched, p.1 % 7 ∈ sd ∧ p.2 ≠ []) →
      ∀ p ∈ s', p.1 % 7 ∈ sd ∧ p.2 ≠ [] := by
  intro fuel
  induction fuel with
  | zero =>
    intro d t rem sched s' d' t' h
    simp [scheduleItem] at h
  | succ f ih =>
    intro d t rem sched s' d' t' h hel
    simp only [scheduleItem] at h
    split_ifs at h with h1 h2 h3 h4
    · simp only [Option.some.injEq, Prod.mk.injEq] at h
      obtain ⟨hs, _, _⟩ := h
      subst hs
      intro p hp
      rcases mem_addEntry hp with hp' | ⟨es, rfl, _⟩
      · exact hel p hp'
      · exact ⟨h2, by simp⟩
    · simp only [Option.some.injEq, Prod.mk.injEq] at h
      obtain ⟨hs, _, _⟩ := h
      subst hs
      intro p hp
      rcases mem_addEntry hp with hp' | ⟨es, rfl, _⟩
      · exact hel p hp'
      · exact ⟨h2, by simp⟩
    · refine ih _ _ _ _ _ _ _ h ?_
      intro p hp
      rcases mem_addEntry hp with hp' | ⟨es, rfl, _⟩
      · exact hel p hp'
      · exact ⟨h2, by simp⟩
    · exact ih _ _ _ _ _ _ _ h hel
    · simp only [Option.some.injEq, Prod.mk.injEq] at h
      obtain ⟨hs, _, _⟩ := h
      subst hs
      exact hel

theorem scheduleItem_budget (sd : List ℕ) (L : ℚ) (c : WorkItem) :
    ∀ (fuel d : ℕ) (t rem : ℚ) (sched s' : Schedule) (d' : ℕ) (t' : ℚ),
      scheduleItem sd L c fuel d t rem sched = some (s', d', t') →
      (∀ p ∈ sched, p.1 ≤ d) → 0 ≤ t → t ≤ L →
      (∀ p ∈ sched, sumAlloc p.2 + (if p.1 = d then t else 0) ≤ L) →
      (∀ p ∈ s', p.1 ≤ d') ∧ 0 ≤ t' ∧ t' ≤ L ∧
        (∀ p ∈ s', sumAlloc p.2 + (if p.1 = d' then t' else 0) ≤ L) := by
  intro fuel
  induction fuel with
  | zero =>
    intro d t rem sched s' d' t' h
    simp [scheduleItem] at h
  | succ f ih =>
    intro d t rem sched s' d' t' h hle ht0 htL hbud
    simp only [scheduleItem] at h
    split_ifs at h with h1 h2 h3 h4
    · -- exact fit: entry (rem) added at d, advance to d+1 with fresh L
      have hrt : rem = t := by linarith [sub_eq_zero.1 h4]
      simp only [Option.some.injEq, Prod.mk.injEq] at h
      obtain ⟨hs, hd, hT⟩ := h
      subst hs; subst hd; subst hT
      have hkey : ∀ p ∈ addEntry sched d ⟨c.status, c.title, rem, c.duration⟩, p.1 ≤ d + 1 := by
        intro p hp
        rcases mem_addEntry hp with hp' | ⟨es, rfl, _⟩
        · exact le_trans (hle p hp') (by omega)
        · omega
      refine ⟨hkey, by linarith, le_refl _, ?_⟩
      intro p hp
      have hne : p.1 ≠ d + 1 := by
        rcases mem_addEntry hp with hp' | ⟨es, rfl, _⟩
        · have := hle p hp'
          omega
        · omega
      rw [if_neg hne]
      rcases mem_addEntry hp with hp' | ⟨es, rfl, hes⟩
      · have := hbud p hp'
        split_ifs at this with hpd
        · linarith
        · linarith
      · rcases hes with hes | rfl
        · have := hbud _ hes
          simp at this
          simp only [sumAlloc_append]
          simp only [hrt]
          linarith
        · simp [sumAlloc, hrt]
          linarith
    · -- fits with budget left over: entry (rem) added at d, stay on d
      simp only [Option.some.injEq, Prod.mk.injEq] at h
      obtain ⟨hs, hd, hT⟩ := h
      subst hs; subst hd; subst hT
      refine ⟨?_, by linarith, by linarith, ?_⟩
      · intro p hp
        rcases mem_addEntry hp with hp' | ⟨es, rfl, _⟩
        · exact hle p hp'
        · omega
      · intro p hp
        rcases mem_addEntry hp with hp' | ⟨es, rfl, hes⟩
        · have := hbud p hp'
          split_ifs at this with hpd
          · rw [if_pos hpd]
            linarith
          · rw [if_neg hpd]
            linarith
        · split_ifs with hq
          · rcases hes with hes | rfl
            · have := hbud _ hes
              simp at this
              simp only [sumAlloc_append]
              linarith
            · simp [sumAlloc]
              linarith
          · exact absurd rfl hq
    · -- split: entry (t) added at d, advance with remaining rem - t
      refine ih _ _ _ _ _ _ _ h ?_ (by linarith) (le_refl _) ?_
      · intro p hp
        rcases mem_addEntry hp with hp' | ⟨es, rfl, _⟩
        · exact le_trans (hle p hp') (by omega)
        · omega
      · intro p hp
        have hne : p.1 ≠ d + 1 := by
          rcases mem_addEntry hp with hp' | ⟨es, rfl, _⟩
          · have := hle p hp'
            omega
          · omega
        rw [if_neg hne]
        rcases mem_addEntry hp with hp' | ⟨es, rfl, hes⟩
        · have := hbud p hp'
          split_ifs at this with hpd
          · linarith
          · linarith
        · rcases hes with hes | rfl
          · have := hbud _ hes
            simp at this
            simp only [sumAlloc_append]
            linarith
          · simp [sumAlloc]
            linarith
    · -- ineligible day: advance, nothing added
      refine ih _ _ _ _ _ _ _ h ?_ (by linarith) (le_refl _) ?_
      · intro p hp
        exact le_trans (hle p hp) (by omega)
      · intro p hp
        have hne : p.1 ≠ d + 1 := by
          have := hle p hp
          omega
        rw [if_neg hne]
        have := hbud p hp
        split_ifs at this with hpd
        · linarith
        · linarith
    · simp only [Option.some.injEq, Prod.mk.injEq] at h
      obtain ⟨hs, hd, hT⟩ := h
      subst hs; subst hd; subst hT
      exact ⟨hle, ht0, htL, hbud⟩

theorem scheduleItem_entriesAt_lt (sd : List ℕ) (L : ℚ) (c : WorkItem) :
    ∀ (fuel d : ℕ) (t rem : ℚ) (sched s' : Schedule) (d' : ℕ) (t' : ℚ),
      scheduleItem sd L c fuel d t rem sched = some (s', d', t') →
      ∀ k, k < d → entriesAt s' k = entriesAt sched k := by
  intro fuel
  induction fuel with
  | zero =>
    intro d t rem sched s' d' t' h
    simp [scheduleItem] at h
  | succ f ih =>
    intro d t rem sched s' d' t' h k hk
    simp only [scheduleItem] at h
    split_ifs at h with h1 h2 h3 h4
    · simp only [Option.some.injEq, Prod.mk.injEq] at h
      obtain ⟨hs, _, _⟩ := h
      subst hs
      rw [entriesAt_addEntry, if_neg (by omega)]
    · simp only [Option.some.injEq, Prod.mk.injEq] at h
      obtain ⟨hs, _, _⟩ := h
      subst hs
      rw [entriesAt_addEntry, if_neg (by omega)]
    · rw [ih _ _ _ _ _ _ _ h k (by omega), entriesAt_addEntry, if_neg (by omega)]
    · exact ih _ _ _ _ _ _ _ h k (by omega)
    · simp only [Option.some.injEq, Prod.mk.injEq] at h
      obtain ⟨hs, _, _⟩ := h
      subst hs
      rfl

/-- Mirror of `scheduleItem_entriesAt_lt` on the other side: the loop only
appends at cursor positions, and the cursor never exceeds its final value,
so dates strictly after the final cursor keep their entries unchanged. -/
theorem scheduleItem_entriesAt_gt (sd : List ℕ) (L : ℚ) (c : WorkItem) :
    ∀ (fuel d : ℕ) (t rem : ℚ) (sched s' : Schedule) (d' : ℕ) (t' : ℚ),
      scheduleItem sd L c fuel d t rem sched = some (s', d', t') →
      ∀ k, d' < k → entriesAt s' k = entriesAt sched k := by
  intro fuel
  induction fuel with
  | zero =>
    intro d t rem sched s' d' t' h
    simp [scheduleItem] at h
  | succ f ih =>
    intro d t rem sched s' d' t' h k hk
    simp only [scheduleItem] at h
    split_ifs at h with h1 h2 h3 h4
    · simp only [Option.some.injEq, Prod.mk.injEq] at h
      obtain ⟨hs, hd, _⟩ := h
      subst hs; subst hd
      rw [entriesAt_addEntry, if_neg (by omega)]
    · simp only [Option.some.injEq, Prod.mk.injEq] at h
      obtain ⟨hs, hd, _⟩ := h
      subst hs; subst hd
      rw [entriesAt_addEntry, if_neg (by omega)]
    · have hd1 : d + 1 ≤ d' :=
        scheduleItem_cursor_mono sd L c f (d + 1) L (rem - t) _ s' d' t' h
      rw [ih _ _ _ _ _ _ _ h k hk, entriesAt_addEntry, if_neg (by omega)]
    · exact ih _ _ _ _ _ _ _ h k hk
    · simp only [Option.some.injEq, Prod.mk.injEq] at h
      obtain ⟨hs, _, _⟩ := h
      subst hs
      rfl

/-- The first loop iteration on an eligible day with a positive budget and a
positive remaining duration appends exactly one fragment of
`min remaining time_left` minutes to the current date; later iterations touch
only later dates. -/
theorem scheduleItem_entriesAt_cursor (sd : List ℕ) (L : ℚ) (c : WorkItem)
    (fuel d : ℕ) (t rem : ℚ) (sched s' : Schedule) (d' : ℕ) (t' : ℚ)
    (h : scheduleItem sd L c fuel d t rem sched = some (s', d', t'))
    (hel : d % 7 ∈ sd) (hrem : 0 < rem) :
    entriesAt s' d = entriesAt sched d ++ [⟨c.status, c.title, min rem t, c.duration⟩] := by
  cases fuel with
  | zero => simp [scheduleItem] at h
  | succ f =>
    simp only [scheduleItem, if_pos hrem, if_pos hel] at h
    split_ifs at h with h3 h4
    · simp only [Option.some.injEq, Prod.mk.injEq] at h
      obtain ⟨hs, _, _⟩ := h
      subst hs
      rw [entriesAt_addEntry, if_pos rfl, min_eq_left h3]
    · simp only [Option.some.injEq, Prod.mk.injEq] at h
      obtain ⟨hs, _, _⟩ := h
      subst hs
      rw [entriesAt_addEntry, if_pos rfl, min_eq_left h3]
    · rw [scheduleItem_entriesAt_lt _ _ _ _ _ _ _ _ _ _ _ h d (by omega),
        entriesAt_addEntry, if_pos rfl, min_eq_right (le_of_not_le h3)]

theorem scheduleItem_mono (sd : List ℕ) (L : ℚ) (c : WorkItem) :
    ∀ (fuel fuel' d : ℕ) (t rem : ℚ) (sched : Schedule) (r : Schedule × ℕ × ℚ),
      fuel ≤ fuel' → scheduleItem sd L c fuel d t rem sched = some r →
      scheduleItem sd L c fuel' d t rem sched = some r := by
  intro fuel
  induction fuel with
  | zero =>
    intro fuel' d t rem sched r _ h
    simp [scheduleItem] at h
  | succ f ih =>
    intro fuel' d t rem sched r hf h
    cases fuel' with
    | zero => omega
    | succ f' =>
      simp only [scheduleItem] at h ⊢
      split_ifs at h ⊢ with h1 h2 h3 h4
      · exact h
      · exact h
      · exact ih _ _ _ _ _ _ (by omega) h
      · exact ih _ _ _ _ _ _ (by omega) h
      · exact h

/-! ### Lemmas about the outer `for` loop -/

theorem scheduleAll_append (sd : List ℕ) (L : ℚ) (fuel : ℕ) :
    ∀ (xs ys : List WorkItem) (d : ℕ) (t : ℚ) (sched : Schedule),
      scheduleAll sd L fuel (xs ++ ys) d t sched =
        (scheduleAll sd L fuel xs d t sched).bind
          (fun r => scheduleAll sd L fuel ys r.2.1 r.2.2 r.1) := by
  intro xs
  induction xs with
  | nil =>
    intro ys d t sched
    simp [scheduleAll]
  | cons c cs ih =>
    intro ys d t sched
    simp only [List.cons_append, scheduleAll]
    cases h : scheduleItem sd L c fuel d t c.duration sched with
    | none => simp
    | some r =>
      obtain ⟨s', d', t'⟩ := r
      simp [ih]

theorem scheduleAll_mono (sd : List ℕ) (L : ℚ) :
    ∀ (cs : List WorkItem) (fuel fuel' d : ℕ) (t : ℚ) (sched : Schedule)
      (r : Schedule × ℕ × ℚ),
      fuel ≤ fuel' → scheduleAll sd L fuel cs d t sched = some r →
      scheduleAll sd L fuel' cs d t sched = some r := by
  intro cs
  induction cs with
  | nil =>
    intro fuel fuel' d t sched r _ h
    simpa [scheduleAll] using h
  | cons c cs ih =>
    intro fuel fuel' d t sched r hf h
    simp only [scheduleAll] at h ⊢
    cases hi : scheduleItem sd L c fuel d t c.duration sched with
    | none => rw [hi] at h; exact absurd h (by simp)
    | some r1 =>
      rw [hi] at h
      obtain ⟨s', d', t'⟩ := r1
      rw [scheduleItem_mono sd L c fuel fuel' d t c.duration sched _ hf hi]
      exact ih _ _ _ _ _ _ hf h

theorem scheduleAll_budget (sd : List ℕ) (L : ℚ) (fuel : ℕ) :
    ∀ (cs : List WorkItem) (d : ℕ) (t : ℚ) (sched s' : Schedule) (d' : ℕ) (t' : ℚ),
      scheduleAll sd L fuel cs d t sched = some (s', d', t') →
      (∀ p ∈ sched, p.1 ≤ d) → 0 ≤ t → t ≤ L →
      (∀ p ∈ sched, sumAlloc p.2 + (if p.1 = d then t else 0) ≤ L) →
      (∀ p ∈ s', p.1 ≤ d') ∧ 0 ≤ t' ∧ t' ≤ L ∧
        (∀ p ∈ s', sumAlloc p.2 + (if p.1 = d' then t' else 0) ≤ L) := by
  intro cs
  induction cs with
  | nil =>
    intro d t sched s' d' t' h hle ht0 htL hbud
    simp only [scheduleAll, Option.some.injEq, Prod.mk.injEq] at h
    obtain ⟨hs, hd, hT⟩ := h
    subst hs; subst hd; subst hT
    exact ⟨hle, ht0, htL, hbud⟩
  | cons c cs ih =>
    intro d t sched s' d' t' h hle ht0 htL hbud
    simp only [scheduleAll] at h
    cases hi : scheduleItem sd L c fuel d t c.duration sched with
    | none => rw [hi] at h; exact absurd h (by simp)
    | some r1 =>
      rw [hi] at h
      obtain ⟨s1, d1, t1⟩ := r1
      obtain ⟨a, b, c', e⟩ := scheduleItem_budget sd L c fuel d t c.duration sched s1 d1 t1 hi hle ht0 htL hbud
      exact ih _ _ _ _ _ _ h a b c' e

theorem scheduleAll_eligible (sd : List ℕ) (L : ℚ) (fuel : ℕ) :
    ∀ (cs : List WorkItem) (d : ℕ) (t : ℚ) (sched s' : Schedule) (d' : ℕ) (t' : ℚ),
      scheduleAll sd L fuel cs d t sched = some (s', d', t') →
      (∀ p ∈ sched, p.1 % 7 ∈ sd ∧ p.2 ≠ []) →
      ∀ p ∈ s', p.1 % 7 ∈ sd ∧ p.2 ≠ [] := by
  intro cs
  induction cs with
  | nil =>
    intro d t sched s' d' t' h hel
    simp only [scheduleAll, Option.some.injEq, Prod.mk.injEq] at h
    obtain ⟨hs, _, _⟩ := h
    subst hs
    exact hel
  | cons c cs ih =>
    intro d t sched s' d' t' h hel
    simp only [scheduleAll] at h
    cases hi : scheduleItem sd L c fuel d t c.duration sched with
    | none => rw [hi] at h; exact absurd h (by simp)
    | some r1 =>
      rw [hi] at h
      obtain ⟨s1, d1, t1⟩ := r1
      exact ih _ _ _ _ _ _ h (scheduleItem_eligible sd L c fuel d t c.duration sched s1 d1 t1 hi hel)

theorem scheduleAll_keys_chain (sd : List ℕ) (L : ℚ) (fuel : ℕ) :
    ∀ (cs : List WorkItem) (d : ℕ) (t : ℚ) (sched s' : Schedule) (d' : ℕ) (t' : ℚ),
      scheduleAll sd L fuel cs d t sched = some (s', d', t') →
      (∀ p ∈ sched, p.1 ≤ d) → List.Chain' (· < ·) (sched.map Prod.fst) →
      (∀ p ∈ s', p.1 ≤ d') ∧ List.Chain' (· < ·) (s'.map Prod.fst) := by
  intro cs
  induction cs with
  | nil =>
    intro d t sched s' d' t' h hle hch
    simp only [scheduleAll, Option.some.injEq, Prod.mk.injEq] at h
    obtain ⟨hs, hd, _⟩ := h
    subst hs; subst hd
    exact ⟨hle, hch⟩
  | cons c cs ih =>
    intro d t sched s' d' t' h hle hch
    simp only [scheduleAll] at h
    cases hi : scheduleItem sd L c fuel d t c.duration sched with
    | none => rw [hi] at h; exact absurd h (by simp)
    | some r1 =>
      rw [hi] at h
      obtain ⟨s1, d1, t1⟩ := r1
      obtain ⟨a, b⟩ := scheduleItem_keys_chain sd L c fuel d t c.duration sched s1 d1 t1 hi hle hch
      exact ih _ _ _ _ _ _ h a b

theorem scheduleAll_timeLeft (sd : List ℕ) (L : ℚ) (fuel : ℕ) (hL : 0 < L) :
    ∀ (cs : List WorkItem) (d : ℕ) (t : ℚ) (sched s' : Schedule) (d' : ℕ) (t' : ℚ),
      scheduleAll sd L fuel cs d t sched = some (s', d', t') →
      0 < t → t ≤ L → 0 < t' ∧ t' ≤ L := by
  intro cs
  induction cs with
  | nil =>
    intro d t sched s' d' t' h ht htL
    simp only [scheduleAll, Option.some.injEq, Prod.mk.injEq] at h
    obtain ⟨_, _, hT⟩ := h
    subst hT
    exact ⟨ht, htL⟩
  | cons c cs ih =>
    intro d t sched s' d' t' h ht htL
    simp only [scheduleAll] at h
    cases hi : scheduleItem sd L c fuel d t c.duration sched with
    | none => rw [hi] at h; exact absurd h (by simp)
    | some r1 =>
      rw [hi] at h
      obtain ⟨s1, d1, t1⟩ := r1
      obtain ⟨a, b⟩ := scheduleItem_timeLeft sd L c hL fuel d t c.duration sched s1 d1 t1 hi ht htL
      exact ih _ _ _ _ _ _ h a b

/-! ### Termination: sufficient fuel always exists -/

theorem scheduleItem_step (sd : List ℕ) (L : ℚ) (c : WorkItem) (f d : ℕ)
    (t rem : ℚ) (sched : Schedule) :
    scheduleItem sd L c (f + 1) d t rem sched =
      if 0 < rem then
        if d % 7 ∈ sd then
          if rem ≤ t then
            if t - rem = 0 then
              some (addEntry sched d ⟨c.status, c.title, rem, c.duration⟩, d + 1, L)
            else
              some (addEntry sched d ⟨c.status, c.title, rem, c.duration⟩, d, t - rem)
          else
            scheduleItem sd L c f (d + 1) L (rem - t)
              (addEntry sched d ⟨c.status, c.title, t, c.duration⟩)
        else
          scheduleItem sd L c f (d + 1) L rem sched
      else some (sched, d, t) := rfl

/-- From any date, some weekday within the next 6 days is eligible, provided
one value of `study_days` is an actual weekday. -/
theorem next_eligible {sd : List ℕ} (hw : ∃ w ∈ sd, w < 7) (d : ℕ) :
    ∃ j, j ≤ 6 ∧ (d + j) % 7 ∈ sd := by
  obtain ⟨w, hwm, h7⟩ := hw
  refine ⟨(w + 7 - d % 7) % 7, by omega, ?_⟩
  have h : (d + (w + 7 - d % 7) % 7) % 7 = w := by omega
  rw [h]
  exact hwm

theorem scheduleItem_exists_fuel (sd : List ℕ) (L : ℚ) (c : WorkItem)
    (hL : 0 < L) (hw : ∀ d : ℕ, ∃ j, j ≤ 6 ∧ (d + j) % 7 ∈ sd) :
    ∀ (k n j d : ℕ) (t rem : ℚ) (sched : Schedule),
      k = 7 * n + j → 0 < t → t ≤ L → rem ≤ t + (n : ℚ) * L → (d + j) % 7 ∈ sd →
      ∃ f r, scheduleItem sd L c f d t rem sched = some r := by
  intro k
  induction k using Nat.strong_induction_on with
  | _ k IH =>
    intro n j d t rem sched hk ht htL hb hel
    by_cases hrem : 0 < rem
    · by_cases he : d % 7 ∈ sd
      · by_cases hfit : rem ≤ t
        · by_cases hz : t - rem = 0
          · refine ⟨1, (addEntry sched d ⟨c.status, c.title, rem, c.duration⟩, d + 1, L), ?_⟩
            rw [show (1 : ℕ) = 0 + 1 from rfl, scheduleItem_step,
              if_pos hrem, if_pos he, if_pos hfit, if_pos hz]
          · refine ⟨1, (addEntry sched d ⟨c.status, c.title, rem, c.duration⟩, d, t - rem), ?_⟩
            rw [show (1 : ℕ) = 0 + 1 from rfl, scheduleItem_step,
              if_pos hrem, if_pos he, if_pos hfit, if_neg hz]
        · have hn : n ≠ 0 := by
            rintro rfl
            simp only [Nat.cast_zero, zero_mul, add_zero] at hb
            exact hfit hb
          obtain ⟨n', rfl⟩ : ∃ n', n = n' + 1 := ⟨n - 1, by omega⟩
          obtain ⟨j', hj'6, hel'⟩ := hw (d + 1)
          have hb' : rem - t ≤ L + (n' : ℚ) * L := by
            have hc : ((n' + 1 : ℕ) : ℚ) * L = (n' : ℚ) * L + L := by
              push_cast
              ring
            rw [hc] at hb
            linarith
          obtain ⟨f, r, hf⟩ := IH (7 * n' + j') (by omega) n' j' (d + 1) L (rem - t)
            (addEntry sched d ⟨c.status, c.title, t, c.duration⟩) rfl hL (le_refl L)
            (by linarith) hel'
          refine ⟨f + 1, r, ?_⟩
          rw [scheduleItem_step, if_pos hrem, if_pos he, if_neg hfit]
          exact hf
      · have hj : j ≠ 0 := by
          rintro rfl
          rw [Nat.add_zero] at hel
          exact he hel
        obtain ⟨j', rfl⟩ : ∃ j', j = j' + 1 := ⟨j - 1, by omega⟩
        have hel' : (d + 1 + j') % 7 ∈ sd := by
          have hdj : d + 1 + j' = d + (j' + 1) := by omega
          rw [hdj]
          exact hel
        obtain ⟨f, r, hf⟩ := IH (7 * n + j') (by omega) n j' (d + 1) L rem sched rfl hL
          (le_refl L) (by linarith) hel'
        refine ⟨f + 1, r, ?_⟩
        rw [scheduleItem_step, if_pos hrem, if_neg he]
        exact hf
    · refine ⟨1, (sched, d, t), ?_⟩
      rw [show (1 : ℕ) = 0 + 1 from rfl, scheduleItem_step, if_neg hrem]

theorem scheduleItem_terminates (sd : List ℕ) (L : ℚ) (c : WorkItem)
    (hL : 0 < L) (hw : ∃ w ∈ sd, w < 7) (d : ℕ) (t rem : ℚ) (sched : Schedule)
    (ht : 0 < t) (htL : t ≤ L) :
    ∃ f r, scheduleItem sd L c f d t rem sched = some r := by
  obtain ⟨j, hj, hel⟩ := next_eligible hw d
  obtain ⟨n, hn⟩ := exists_nat_ge ((rem - t) / L)
  have hb : rem ≤ t + (n : ℚ) * L := by
    rw [div_le_iff₀ hL] at hn
    linarith
  exact scheduleItem_exists_fuel sd L c hL (fun d => next_eligible hw d)
    (7 * n + j) n j d t rem sched rfl ht htL hb hel

theorem scheduleAll_terminates (sd : List ℕ) (L : ℚ) (hL : 0 < L)
    (hw : ∃ w ∈ sd, w < 7) :
    ∀ (cs : List WorkItem) (d : ℕ) (t : ℚ) (sched : Schedule),
      0 < t → t ≤ L → ∃ fuel r, scheduleAll sd L fuel cs d t sched = some r := by
  intro cs
  induction cs with
  | nil =>
    intro d t sched _ _
    exact ⟨0, (sched, d, t), rfl⟩
  | cons c cs ih =>
    intro d t sched ht htL
    obtain ⟨f1, r1, h1⟩ := scheduleItem_terminates sd L c hL hw d t c.duration sched ht htL
    obtain ⟨s1, d1, t1⟩ := r1
    obtain ⟨ht1, htL1⟩ := scheduleItem_timeLeft sd L c hL f1 d t c.duration sched s1 d1 t1 h1 ht htL
    obtain ⟨f2, r2, h2⟩ := ih d1 t1 s1 ht1 htL1
    refine ⟨max f1 f2, r2, ?_⟩
    simp only [scheduleAll]
    rw [scheduleItem_mono sd L c f1 (max f1 f2) d t c.duration sched _ (le_max_left _ _) h1]
    exact scheduleAll_mono sd L cs f2 (max f1 f2) d1 t1 s1 r2 (le_max_right _ _) h2

/-! ### The class list threaded through the `for` loop (frame property)

The Python `for cls in classes` loop reads `cls[0]`, `cls[1]`, `cls[2]` and
writes only the local variables `original_duration`, `remaining_duration`,
`current_date`, `time_left` and the dict `study_schedule`; no statement of
`schedule_classes` assigns into `cls` or `classes`.  `scheduleAllState`
renders this: it threads the list of class objects through the loop,
re-emitting each `cls` exactly as the loop body leaves it (unchanged). -/
def scheduleAllState (sd : List ℕ) (L : ℚ) (fuel : ℕ) :
    List WorkItem → ℕ → ℚ → Schedule → Option (Schedule × ℕ × ℚ × List WorkItem)
  | [], d, t, sched => some (sched, d, t, [])
  | c :: cs, d, t, sched =>
    match scheduleItem sd L c fuel d t c.duration sched with
    | none => none
    | some (sched', d', t') =>
      match scheduleAllState sd L fuel cs d' t' sched' with
      | none => none
      | some (sched'', d'', t'', cs') => some (sched'', d'', t'', c :: cs')

/-! ### The description built by `create_calendar_events`

Only the description of an event depends on the schedule entries; the
start/end datetimes are timezone glue outside the scope of these claims.
`total_seconds = original_duration_minutes * 60`;
`hours = int(total_seconds // 3600)`;
`minutes = int((total_seconds % 3600) // 60)`;
`seconds = int(total_seconds % 60)`.
Python `x // y` on numbers is floor division and `x % y = x - y*(x // y)` is
the sign-follows-divisor remainder, so `x % y ∈ [0, y)` for `y > 0`; `int()`
truncates toward zero, which on those non-negative remainders (and on the
already-integral floor quotients) is exact. -/

/-- Python `x % y` for rationals (`y > 0`): `x - y * ⌊x / y⌋`. -/
def pymod (x y : ℚ) : ℚ := x - y * ⌊x / y⌋

/-- The `(hours, minutes, seconds)` computed by `create_calendar_events`
from `original_duration_minutes`. -/
def toHMS (m : ℚ) : ℤ × ℤ × ℤ :=
  (⌊m * 60 / 3600⌋, ⌊pymod (m * 60) 3600 / 60⌋, ⌊pymod (m * 60) 60⌋)

/-- Python `f"{n:02d}"`: pad a single non-negative digit with a leading 0. -/
def pad2 (n : ℤ) : String :=
  if 0 ≤ n ∧ n < 10 then "0" ++ toString n else toString n

/-- One description line: `f"⬜ {class_name} ({duration_str})"`, where the
duration string renders the entry's original (pre-split) duration. -/
def entryLine (e : ScheduleEntry) : String :=
  "⬜ " ++ e.title ++ " (" ++ pad2 (toHMS e.original).1 ++ ":" ++
    pad2 (toHMS e.original).2.1 ++ ":" ++ pad2 (toHMS e.original).2.2 ++ ")"

/-- The `description_lines` list built for one day's classes. -/
def buildDescription (classes : List ScheduleEntry) : List String :=
  "Classes for today:\n" :: (classes.map entryLine ++
    ["\n✏️ Update ⬜ to ✅ as you complete each class!"])

/-! ### Claim theorems -/

theorem schedule_classes_eq_some {fuel : ℕ} {classes : List WorkItem} {start : ℕ}
    {sd : List ℕ} {hrs : ℚ} {sched : Schedule}
    (h : schedule_classes fuel classes start sd hrs = some sched) :
    ∃ d' t', scheduleAll sd (hrs * 60) fuel classes start (hrs * 60) [] =
      some (sched, d', t') := by
  unfold schedule_classes at h
  cases ha : scheduleAll sd (hrs * 60) fuel classes start (hrs * 60) [] with
  | none => rw [ha] at h; simp at h
  | some r =>
    rw [ha] at h
    obtain ⟨s', d', t'⟩ := r
    simp only [Option.map_some', Option.some.injEq] at h
    exact ⟨d', t', by rw [h]⟩

/-- C3: in every schedule returned by `schedule_classes`, for every date in
the schedule, the sum of allocated minutes over that date's entries is at
most the daily limit `daily_study_limit_hours * 60`. -/
theorem c3_budget_respect (fuel : ℕ) (classes : List WorkItem) (start : ℕ)
    (sd : List ℕ) (hrs : ℚ) (sched : Schedule) (hl : 0 < hrs)
    (h : schedule_classes fuel classes start sd hrs = some sched) :
    ∀ p ∈ sched, sumAlloc p.2 ≤ hrs * 60 := by
  obtain ⟨d', t', ha⟩ := schedule_classes_eq_some h
  obtain ⟨_, ht0, _, hbud⟩ := scheduleAll_budget sd (hrs * 60) fuel classes start
    (hrs * 60) [] sched d' t' ha (by simp) (by linarith) (le_refl _) (by simp)
  intro p hp
  have := hbud p hp
  split_ifs at this with hpd
  · linarith
  · linarith

/-- C3 witness: a concrete run where one fully loaded day meets the limit. -/
theorem c3_budget_respect_witness :
    sumAlloc [(⟨"Not Started", "B", 60, 150⟩ : ScheduleEntry)] ≤ (1 : ℚ) * 60 := by
  have h : schedule_classes 10 [⟨"Not Started", "B", 150⟩] 0 [0, 1] 1 =
      some [(0, [⟨"Not Started", "B", 60, 150⟩]),
            (1, [⟨"Not Started", "B", 60, 150⟩]),
            (7, [⟨"Not Started", "B", 30, 150⟩])] := by
    norm_num [schedule_classes, scheduleAll, scheduleItem, addEntry]
  exact c3_budget_respect 10 [⟨"Not Started", "B", 150⟩] 0 [0, 1] 1 _ (by norm_num) h
    (0, [⟨"Not Started", "B", 60, 150⟩]) (by simp)

/-- C4: no entry is ever attached to a date whose weekday is not in
`study_days`; every recorded date is eligible and carries at least one
entry (ineligible days receive nothing). -/
theorem c4_day_eligibility (fuel : ℕ) (classes : List WorkItem) (start : ℕ)
    (sd : List ℕ) (hrs : ℚ) (sched : Schedule)
    (h : schedule_classes fuel classes start sd hrs = some sched) :
    ∀ p ∈ sched, p.1 % 7 ∈ sd ∧ p.2 ≠ [] := by
  obtain ⟨d', t', ha⟩ := schedule_classes_eq_some h
  exact scheduleAll_eligible sd (hrs * 60) fuel classes start (hrs * 60) [] sched d' t'
    ha (by simp)

/-- C4 witness: the schedule of a concrete run only uses Mondays (weekday 0). -/
theorem c4_day_eligibility_witness :
    (1 : ℕ) % 7 ∈ [1] ∧ ([(⟨"s", "A", 30, 30⟩ : ScheduleEntry)] : List ScheduleEntry) ≠ [] := by
  have h : schedule_classes 5 [⟨"s", "A", 30⟩] 0 [1] 1 =
      some [(1, [⟨"s", "A", 30, 30⟩])] := by
    norm_num [schedule_classes, scheduleAll, scheduleItem, addEntry]
  exact c4_day_eligibility 5 [⟨"s", "A", 30⟩] 0 [1] 1 _ h (1, [⟨"s", "A", 30, 30⟩]) (by simp)

/-- C5: the schedule's dates are recorded (and iterated) in strictly
increasing chronological order, and the packer is sequential: processing one
item never moves the cursor backwards, a date's entry list changes only when
that date lies between the cursor position where the item started and the
cursor position where it ended, and any new date key also lies in that
interval — so every entry an item appends sits on a date at or after the
cursor it inherited from the previous item, and hence no earlier than any
date holding the previous item's entries. -/
theorem c5_order_preservation :
    (∀ (fuel : ℕ) (classes : List WorkItem) (start : ℕ) (sd : List ℕ)
        (hrs : ℚ) (sched : Schedule),
        schedule_classes fuel classes start sd hrs = some sched →
        List.Chain' (· < ·) (sched.map Prod.fst)) ∧
    (∀ (sd : List ℕ) (L : ℚ) (c : WorkItem) (fuel d : ℕ) (t rem : ℚ)
        (sched s' : Schedule) (d' : ℕ) (t' : ℚ),
        scheduleItem sd L c fuel d t rem sched = some (s', d', t') →
        d ≤ d' ∧
        (∀ k, entriesAt s' k ≠ entriesAt sched k → d ≤ k ∧ k ≤ d') ∧
        (∀ k ∈ s'.map Prod.fst, k ∈ sched.map Prod.fst ∨ (d ≤ k ∧ k ≤ d'))) := by
  constructor
  · intro fuel classes start sd hrs sched h
    obtain ⟨d', t', ha⟩ := schedule_classes_eq_some h
    exact (scheduleAll_keys_chain sd (hrs * 60) fuel classes start (hrs * 60) []
      sched d' t' ha (by simp) (by simp)).2
  · intro sd L c fuel d t rem sched s' d' t' h
    refine ⟨scheduleItem_cursor_mono sd L c fuel d t rem sched s' d' t' h, ?_,
      scheduleItem_new_keys sd L c fuel d t rem sched s' d' t' h⟩
    intro k hk
    constructor
    · by_contra hkd
      exact hk (scheduleItem_entriesAt_lt sd L c fuel d t rem sched s' d' t' h k
        (by omega))
    · by_contra hkd
      exact hk (scheduleItem_entriesAt_gt sd L c fuel d t rem sched s' d' t' h k
        (by omega))

/-- C5 witness: the three dates of a concrete split run are strictly
increasing, and the item's processing moved the cursor forward. -/
theorem c5_order_preservation_witness :
    List.Chain' (· < ·) (([(0, [⟨"Not Started", "B", 60, 150⟩]),
      (1, [⟨"Not Started", "B", 60, 150⟩]),
      (7, [⟨"Not Started", "B", 30, 150⟩])] : Schedule).map Prod.fst) := by
  have h : schedule_classes 10 [⟨"Not Started", "B", 150⟩] 0 [0, 1] 1 =
      some [(0, [⟨"Not Started", "B", 60, 150⟩]),
            (1, [⟨"Not Started", "B", 60, 150⟩]),
            (7, [⟨"Not Started", "B", 30, 150⟩])] := by
    norm_num [schedule_classes, scheduleAll, scheduleItem, addEntry]
  exact c5_order_preservation.1 10 [⟨"Not Started", "B", 150⟩] 0 [0, 1] 1 _ h

/-- C6: day-boundary tie-break.
1. If the remaining duration exactly equals the current `time_left` on an
   eligible day, the item finishes on that day and the loop state moves to
   the next day with a fresh budget — the next item starts its search from a
   strictly later date.
2. On an eligible day with a positive budget, an item with positive
   remaining duration puts its first fragment (of `min remaining time_left`
   minutes) on that very day — so after an item that finishes with
   `time_left` still positive, the next item's first entry is on the same
   date.
3. If the item finishes with `time_left` still positive, the cursor stays on
   the same date, keeping the leftover budget.
4. Dates strictly before the cursor never receive further entries — the
   exhausted day is never packed further. -/
theorem c6_day_boundary_tie_break :
    (∀ (sd : List ℕ) (L : ℚ) (c : WorkItem) (fuel d : ℕ) (t rem : ℚ)
        (sched : Schedule), d % 7 ∈ sd → 0 < rem → rem = t →
        scheduleItem sd L c (fuel + 1) d t rem sched =
          some (addEntry sched d ⟨c.status, c.title, rem, c.duration⟩, d + 1, L)) ∧
    (∀ (sd : List ℕ) (L : ℚ) (c₂ : WorkItem) (fuel d : ℕ) (t rem₂ : ℚ)
        (sched s' : Schedule) (d' : ℕ) (t' : ℚ), d % 7 ∈ sd → 0 < rem₂ →
        scheduleItem sd L c₂ fuel d t rem₂ sched = some (s', d', t') →
        entriesAt s' d = entriesAt sched d ++
          [⟨c₂.status, c₂.title, min rem₂ t, c₂.duration⟩]) ∧
    (∀ (sd : List ℕ) (L : ℚ) (c : WorkItem) (fuel d : ℕ) (t rem : ℚ)
        (sched : Schedule), d % 7 ∈ sd → 0 < rem → rem < t →
        scheduleItem sd L c (fuel + 1) d t rem sched =
          some (addEntry sched d ⟨c.status, c.title, rem, c.duration⟩, d, t - rem) ∧
          0 < t - rem) ∧
    (∀ (sd : List ℕ) (L : ℚ) (c₂ : WorkItem) (fuel d₀ d : ℕ) (t rem : ℚ)
        (sched s' : Schedule) (d' : ℕ) (t' : ℚ), d < d₀ →
        scheduleItem sd L c₂ fuel d₀ t rem sched = some (s', d', t') →
        entriesAt s' d = entriesAt sched d) := by
  refine ⟨?_, ?_, ?_, ?_⟩
  · intro sd L c fuel d t rem sched hel hrem hexact
    rw [scheduleItem_step, if_pos hrem, if_pos hel, if_pos (le_of_eq hexact),
      if_pos (by rw [hexact, sub_self])]
  · intro sd L c₂ fuel d t rem₂ sched s' d' t' hel hrem h
    exact scheduleItem_entriesAt_cursor sd L c₂ fuel d t rem₂ sched s' d' t' h hel hrem
  · intro sd L c fuel d t rem sched hel hrem hlt
    refine ⟨?_, by linarith⟩
    rw [scheduleItem_step, if_pos hrem, if_pos hel, if_pos (le_of_lt hlt),
      if_neg (by intro hz; linarith [sub_eq_zero.1 hz])]
  · intro sd L c₂ fuel d₀ d t rem sched s' d' t' hlt h
    exact scheduleItem_entriesAt_lt sd L c₂ fuel d₀ t rem sched s' d' t' h d hlt

/-- C6 witness: an item of exactly 60 remaining minutes against 60 minutes
of `time_left` on eligible Monday 0 finishes that day and moves the cursor
to day 1 with a fresh budget. -/
theorem c6_day_boundary_tie_break_witness :
    scheduleItem [0] 60 ⟨"s", "A", 60⟩ (3 + 1) 0 60 60 [] =
      some (addEntry [] 0 ⟨"s", "A", 60, 60⟩, 0 + 1, 60) := by
  exact c6_day_boundary_tie_break.1 [0] 60 ⟨"s", "A", 60⟩ 3 0 60 60 []
    (by norm_num) (by norm_num) rfl

theorem scheduleItem_zero (sd : List ℕ) (L : ℚ) (c : WorkItem) (f d : ℕ)
    (t : ℚ) (sched : Schedule) :
    scheduleItem sd L c (f + 1) d t 0 sched = some (sched, d, t) := by
  rw [scheduleItem_step, if_neg (lt_irrefl 0)]

/-- C9: a zero-duration item produces no entry and leaves the scheduling
state (cursor, remaining budget, schedule) unchanged, so the overall
schedule equals that of the input with the zero-duration item removed. -/
theorem c9_zero_duration_skip :
    (∀ (sd : List ℕ) (L : ℚ) (c : WorkItem) (f d : ℕ) (t : ℚ) (sched : Schedule),
        c.duration = 0 →
        scheduleItem sd L c (f + 1) d t c.duration sched = some (sched, d, t)) ∧
    (∀ (fuel : ℕ) (pre post : List WorkItem) (c : WorkItem) (start : ℕ)
        (sd : List ℕ) (hrs : ℚ), 1 ≤ fuel → c.duration = 0 →
        schedule_classes fuel (pre ++ c :: post) start sd hrs =
          schedule_classes fuel (pre ++ post) start sd hrs) := by
  constructor
  · intro sd L c f d t sched hc
    rw [hc, scheduleItem_zero]
  · intro fuel pre post c start sd hrs hf hc
    obtain ⟨f, rfl⟩ : ∃ f, fuel = f + 1 := ⟨fuel - 1, by omega⟩
    unfold schedule_classes
    rw [scheduleAll_append, scheduleAll_append]
    cases ha : scheduleAll sd (hrs * 60) (f + 1) pre start (hrs * 60) [] with
    | none => rfl
    | some r =>
      obtain ⟨s1, d1, t1⟩ := r
      have hstep : scheduleAll sd (hrs * 60) (f + 1) (c :: post) d1 t1 s1 =
          scheduleAll sd (hrs * 60) (f + 1) post d1 t1 s1 := by
        simp only [scheduleAll, hc, scheduleItem_zero]
      exact congrArg (Option.map (fun r => r.1)) hstep

/-- C9 witness: removing a zero-duration item does not change a concrete
schedule. -/
theorem c9_zero_duration_skip_witness :
    schedule_classes 3 ([⟨"s", "A", 30⟩] ++ ⟨"s", "Z", 0⟩ :: [⟨"s", "C", 20⟩]) 0 [0] 1 =
      schedule_classes 3 ([⟨"s", "A", 30⟩] ++ [⟨"s", "C", 20⟩]) 0 [0] 1 :=
  c9_zero_duration_skip.2 3 [⟨"s", "A", 30⟩] [⟨"s", "C", 20⟩] ⟨"s", "Z", 0⟩ 0 [0] 1
    (by norm_num) rfl

/-- C10: the class list is threaded through the `for` loop unchanged — no
loop iteration writes into any `cls` — and dropping the threaded list gives
back exactly the plain scheduler, so the caller can reuse the input list
after `schedule_classes` returns. -/
theorem c10_input_immutability (sd : List ℕ) (L : ℚ) (fuel : ℕ) :
    ∀ (cs : List WorkItem) (d : ℕ) (t : ℚ) (sched : Schedule)
      (out : Schedule × ℕ × ℚ × List WorkItem),
      scheduleAllState sd L fuel cs d t sched = some out →
      out.2.2.2 = cs ∧
        scheduleAll sd L fuel cs d t sched = some (out.1, out.2.1, out.2.2.1) := by
  intro cs
  induction cs with
  | nil =>
    intro d t sched out h
    simp only [scheduleAllState, Option.some.injEq] at h
    subst h
    exact ⟨rfl, rfl⟩
  | cons c cs ih =>
    intro d t sched out h
    simp only [scheduleAllState] at h
    cases hi : scheduleItem sd L c fuel d t c.duration sched with
    | none => rw [hi] at h; exact absurd h (by simp)
    | some r1 =>
      rw [hi] at h
      obtain ⟨s1, d1, t1⟩ := r1
      have h2 : (match scheduleAllState sd L fuel cs d1 t1 s1 with
          | none => none
          | some (sched2, d2, t2, cs2) => some (sched2, d2, t2, c :: cs2)) = some out := h
      clear h
      cases hr : scheduleAllState sd L fuel cs d1 t1 s1 with
      | none => rw [hr] at h2; exact absurd h2 (by simp)
      | some out2 =>
        rw [hr] at h2
        obtain ⟨s2, d2, t2, cs2⟩ := out2
        simp only [Option.some.injEq] at h2
        subst h2
        obtain ⟨hcs, hall⟩ := ih d1 t1 s1 (s2, d2, t2, cs2) hr
        refine ⟨congrArg (fun l => c :: l) hcs, ?_⟩
        simp only [scheduleAll, hi]
        exact hall

/-- C10 witness: a concrete run returns the input list unchanged. -/
theorem c10_input_immutability_witness :
    ((([(0, [⟨"s", "A", 30, 30⟩])], 0, 30, [⟨"s", "A", 30⟩]) :
        Schedule × ℕ × ℚ × List WorkItem)).2.2.2 = [⟨"s", "A", 30⟩] ∧
      scheduleAll [0] 60 3 [⟨"s", "A", 30⟩] 0 60 [] =
        some ([(0, [⟨"s", "A", 30, 30⟩])], 0, 30) := by
  have h : scheduleAllState [0] 60 3 [⟨"s", "A", 30⟩] 0 60 [] =
      some ([(0, [⟨"s", "A", 30, 30⟩])], 0, 30, [⟨"s", "A", 30⟩]) := by
    norm_num [scheduleAllState, scheduleItem, addEntry]
  exact c10_input_immutability [0] 60 3 [⟨"s", "A", 30⟩] 0 60 []
    ([(0, [⟨"s", "A", 30, 30⟩])], 0, 30, [⟨"s", "A", 30⟩]) h

/-- C7: whenever `study_days` contains at least one actual weekday, the
daily limit is positive and all durations are non-negative, some finite
fuel makes every loop of `schedule_classes` terminate with a result. -/
theorem c7_termination (classes : List WorkItem) (start : ℕ) (sd : List ℕ)
    (hrs : ℚ) (hw : ∃ w ∈ sd, w < 7) (hl : 0 < hrs)
    (hd : ∀ c ∈ classes, 0 ≤ c.duration) :
    ∃ fuel sched, schedule_classes fuel classes start sd hrs = some sched := by
  have hL : 0 < hrs * 60 := by linarith
  obtain ⟨fuel, r, hr⟩ := scheduleAll_terminates sd (hrs * 60) hL hw classes start
    (hrs * 60) [] hL (le_refl _)
  refine ⟨fuel, r.1, ?_⟩
  unfold schedule_classes
  rw [hr]
  rfl

/-- C7 witness: the hypotheses hold at a concrete input and fuel exists. -/
theorem c7_termination_witness :
    ∃ fuel sched, schedule_classes fuel [⟨"s", "A", 90⟩] 2 [0, 3] 1 = some sched :=
  c7_termination [⟨"s", "A", 90⟩] 2 [0, 3] 1 ⟨0, by norm_num, by norm_num⟩
    (by norm_num) (by intro c hc; simp at hc; subst hc; norm_num)

/-- C1: conservation — the entries produced while scheduling the i-th
(multiplier-adjusted) item increase the total allocated minutes of the
schedule by exactly that item's full, multiplier-adjusted duration: no
minutes are lost and none are duplicated. -/
theorem c1_conservation (fuel i : ℕ) (classes : List WorkItem) (multiplier : ℚ)
    (start : ℕ) (sd : List ℕ) (hrs : ℚ) (s0 s1 : Schedule)
    (hw : ∃ w ∈ sd, w < 7) (hl : 0 < hrs) (hi : i < classes.length)
    (hd : 0 ≤ (classes.get ⟨i, hi⟩).duration) (hm : 0 ≤ multiplier)
    (h0 : schedule_classes fuel ((apply_multiplier classes multiplier).take i)
        start sd hrs = some s0)
    (h1 : schedule_classes fuel ((apply_multiplier classes multiplier).take (i + 1))
        start sd hrs = some s1) :
    totalAlloc s1 = totalAlloc s0 + (classes.get ⟨i, hi⟩).duration * multiplier := by
  obtain ⟨d0, t0, ha0⟩ := schedule_classes_eq_some h0
  obtain ⟨d1, t1, ha1⟩ := schedule_classes_eq_some h1
  have hlen : i < (apply_multiplier classes multiplier).length := by
    simpa [apply_multiplier] using hi
  have htake : (apply_multiplier classes multiplier).take (i + 1) =
      (apply_multiplier classes multiplier).take i ++
        [⟨(classes.get ⟨i, hi⟩).status, (classes.get ⟨i, hi⟩).title,
          (classes.get ⟨i, hi⟩).duration * multiplier⟩] := by
    rw [List.take_succ]
    congr 1
    rw [List.getElem?_eq_getElem hlen]
    simp [apply_multiplier, List.get_eq_getElem]
  rw [htake, scheduleAll_append, ha0] at ha1
  have ha1' : scheduleAll sd (hrs * 60) fuel
      [⟨(classes.get ⟨i, hi⟩).status, (classes.get ⟨i, hi⟩).title,
        (classes.get ⟨i, hi⟩).duration * multiplier⟩] d0 t0 s0 =
      some (s1, d1, t1) := ha1
  cases hit : scheduleItem sd (hrs * 60)
      ⟨(classes.get ⟨i, hi⟩).status, (classes.get ⟨i, hi⟩).title,
        (classes.get ⟨i, hi⟩).duration * multiplier⟩ fuel d0 t0
      ((classes.get ⟨i, hi⟩).duration * multiplier) s0 with
  | none =>
    simp only [scheduleAll, hit] at ha1'
    exact absurd ha1' (by simp)
  | some r2 =>
    obtain ⟨s2, d2, t2⟩ := r2
    simp only [scheduleAll, hit, Option.some.injEq, Prod.mk.injEq] at ha1'
    obtain ⟨hs, _, _⟩ := ha1'
    have hcons := scheduleItem_totalAlloc sd (hrs * 60)
      ⟨(classes.get ⟨i, hi⟩).status, (classes.get ⟨i, hi⟩).title,
        (classes.get ⟨i, hi⟩).duration * multiplier⟩ fuel d0 t0
      ((classes.get ⟨i, hi⟩).duration * multiplier) s0 s2 d2 t2 hit
      (mul_nonneg hd hm)
    rw [← hs]
    exact hcons

/-- C1 witness: one item of duration 2 with multiplier 1, over prefixes of
length 0 and 1. -/
theorem c1_conservation_witness :
    totalAlloc [(0, [⟨"s", "A", 2, 2⟩])] =
      totalAlloc [] + (([⟨"s", "A", 2⟩] : List WorkItem).get ⟨0, by norm_num⟩).duration * 1 := by
  have h0 : schedule_classes 3 ((apply_multiplier [⟨"s", "A", 2⟩] 1).take 0) 0 [0] 1 =
      some [] := by
    norm_num [apply_multiplier, schedule_classes, scheduleAll]
  have h1 : schedule_classes 3 ((apply_multiplier [⟨"s", "A", 2⟩] 1).take 1) 0 [0] 1 =
      some [(0, [⟨"s", "A", 2, 2⟩])] := by
    norm_num [apply_multiplier, schedule_classes, scheduleAll, scheduleItem, addEntry]
  exact c1_conservation 3 0 [⟨"s", "A", 2⟩] 1 0 [0] 1 [] [(0, [⟨"s", "A", 2, 2⟩])]
    ⟨0, by norm_num, by norm_num⟩ (by norm_num) (by norm_num) (by norm_num)
    (by norm_num) h0 h1

/-- C2 counterexample: on items `[("Not Started","B",150)]`, eligible
weekdays `{0,1}`, daily limit 60 minutes (1 hour) and start date day 0
(Monday 2024-01-01), `schedule_classes` allocates 60 + 60 + 30 minutes on
days 0, 1 and 7 — not 60 + 90 on days 0 and 1 as the claim states (90 on a
single day would exceed the 60-minute daily limit). -/
theorem c2_split_scenario_counterexample :
    schedule_classes 10 [⟨"Not Started", "B", 150⟩] 0 [0, 1] 1 =
      some [(0, [⟨"Not Started", "B", 60, 150⟩]),
            (1, [⟨"Not Started", "B", 60, 150⟩]),
            (7, [⟨"Not Started", "B", 30, 150⟩])] ∧
    schedule_classes 10 [⟨"Not Started", "B", 150⟩] 0 [0, 1] 1 ≠
      some [(0, [⟨"Not Started", "B", 60, 150⟩]),
            (1, [⟨"Not Started", "B", 90, 150⟩])] := by
  have h : schedule_classes 10 [⟨"Not Started", "B", 150⟩] 0 [0, 1] 1 =
      some [(0, [⟨"Not Started", "B", 60, 150⟩]),
            (1, [⟨"Not Started", "B", 60, 150⟩]),
            (7, [⟨"Not Started", "B", 30, 150⟩])] := by
    norm_num [schedule_classes, scheduleAll, scheduleItem, addEntry]
  refine ⟨h, ?_⟩
  rw [h]
  intro hcontra
  simp only [Option.some.injEq] at hcontra
  exact absurd (congrArg List.length hcontra) (by norm_num)

/-- C2 amended: the same scenario's true output — the 150-minute item is
split 60 / 60 / 30 across days 0 (2024-01-01), 1 (2024-01-02) and 7
(2024-01-08, the next eligible Monday), each entry keeping the original
duration 150. -/
theorem c2_split_scenario_amended :
    schedule_classes 10 [⟨"Not Started", "B", 150⟩] 0 [0, 1] 1 =
      some [(0, [⟨"Not Started", "B", 60, 150⟩]),
            (1, [⟨"Not Started", "B", 60, 150⟩]),
            (7, [⟨"Not Started", "B", 30, 150⟩])] := by
  norm_num [schedule_classes, scheduleAll, scheduleItem, addEntry]

/-- Floor of a rational divided by a positive integer: `⌊a / n⌋ = ⌊a⌋ / n`
(Euclidean division on the right). -/
theorem floor_div_int_pos (a : ℚ) (n : ℤ) (hn : 0 < n) :
    ⌊a / (n : ℚ)⌋ = ⌊a⌋ / n := by
  have hnq : (0 : ℚ) < (n : ℚ) := by exact_mod_cast hn
  rw [Int.floor_eq_iff]
  have hdm : n * (⌊a⌋ / n) + ⌊a⌋ % n = ⌊a⌋ := Int.ediv_add_emod ⌊a⌋ n
  have hr0 : 0 ≤ ⌊a⌋ % n := Int.emod_nonneg ⌊a⌋ (ne_of_gt hn)
  have hrn : ⌊a⌋ % n < n := Int.emod_lt_of_pos ⌊a⌋ hn
  constructor
  · rw [le_div_iff₀ hnq]
    have h1 : ((⌊a⌋ / n : ℤ) : ℚ) * (n : ℚ) ≤ (⌊a⌋ : ℚ) := by
      have : (n : ℤ) * (⌊a⌋ / n) ≤ ⌊a⌋ := by omega
      calc ((⌊a⌋ / n : ℤ) : ℚ) * (n : ℚ) = (((n : ℤ) * (⌊a⌋ / n) : ℤ) : ℚ) := by
            push_cast
            ring
        _ ≤ (⌊a⌋ : ℚ) := by exact_mod_cast this
    exact le_trans h1 (Int.floor_le a)
  · rw [div_lt_iff₀ hnq]
    have h2 : (⌊a⌋ : ℚ) + 1 ≤ ((⌊a⌋ / n : ℤ) : ℚ) * (n : ℚ) + (n : ℚ) := by
      have : ⌊a⌋ + 1 ≤ n * (⌊a⌋ / n) + n := by omega
      calc (⌊a⌋ : ℚ) + 1 = ((⌊a⌋ + 1 : ℤ) : ℚ) := by push_cast; ring
        _ ≤ (((n : ℤ) * (⌊a⌋ / n) + n : ℤ) : ℚ) := by exact_mod_cast this
        _ = ((⌊a⌋ / n : ℤ) : ℚ) * (n : ℚ) + (n : ℚ) := by push_cast; ring
    have h3 : a < (⌊a⌋ : ℚ) + 1 := Int.lt_floor_add_one a
    calc a < (⌊a⌋ : ℚ) + 1 := h3
      _ ≤ ((⌊a⌋ / n : ℤ) : ℚ) * (n : ℚ) + (n : ℚ) := h2
      _ = ((⌊a⌋ / n : ℤ) + 1) * (n : ℚ) := by ring

theorem toHMS_eq (m : ℚ) :
    toHMS m = (⌊m * 60⌋ / 3600, ⌊m * 60⌋ % 3600 / 60, ⌊m * 60⌋ % 60) := by
  have h3600 : ⌊m * 60 / 3600⌋ = ⌊m * 60⌋ / 3600 := by
    have := floor_div_int_pos (m * 60) 3600 (by norm_num)
    push_cast at this
    exact this
  have h60 : ⌊m * 60 / 60⌋ = ⌊m * 60⌋ / 60 := by
    have := floor_div_int_pos (m * 60) 60 (by norm_num)
    push_cast at this
    exact this
  have hmm : ⌊pymod (m * 60) 3600 / 60⌋ = ⌊m * 60⌋ % 3600 / 60 := by
    have hdiv : (m * 60 - 3600 * ((⌊m * 60⌋ / 3600 : ℤ) : ℚ)) / 60 =
        m * 60 / 60 - ((60 * (⌊m * 60⌋ / 3600) : ℤ) : ℚ) := by
      push_cast
      ring
    rw [pymod, h3600, hdiv, Int.floor_sub_int, h60]
    omega
  have hss : ⌊pymod (m * 60) 60⌋ = ⌊m * 60⌋ % 60 := by
    have hsub : m * 60 - 60 * ((⌊m * 60⌋ / 60 : ℤ) : ℚ) =
        m * 60 - ((60 * (⌊m * 60⌋ / 60) : ℤ) : ℚ) := by
      push_cast
      ring
    rw [pymod, h60, hsub, Int.floor_sub_int]
    omega
  rw [toHMS, h3600, hmm, hss]

/-- C8: the duration string of every description line is computed from the
entry's original (pre-split) duration with `total_seconds = minutes * 60`
and floor-based division and remainder — hours, minutes and seconds together
come to exactly `⌊total_seconds⌋`, truncating and never rounding up — the
description lists one line per entry in the date's insertion order, and
90.5 original minutes render as `01:30:30`. -/
theorem c8_description_floor_formatting :
    (∀ m : ℚ, toHMS m = (⌊m * 60⌋ / 3600, ⌊m * 60⌋ % 3600 / 60, ⌊m * 60⌋ % 60)) ∧
    (∀ m : ℚ, (toHMS m).1 * 3600 + (toHMS m).2.1 * 60 + (toHMS m).2.2 = ⌊m * 60⌋) ∧
    (∀ es : List ScheduleEntry, buildDescription es =
      "Classes for today:\n" :: (es.map entryLine ++
        ["\n✏️ Update ⬜ to ✅ as you complete each class!"])) ∧
    entryLine ⟨"Not Started", "B", 60, 90.5⟩ = "⬜ B (01:30:30)" := by
  refine ⟨toHMS_eq, ?_, fun es => rfl, ?_⟩
  · intro m
    rw [toHMS_eq]
    dsimp only
    omega
  · have hfl : ⌊(90.5 : ℚ) * 60⌋ = 5430 := by
      rw [show (90.5 : ℚ) * 60 = ((5430 : ℤ) : ℚ) by norm_num]
      exact Int.floor_intCast 5430
    have hh : toHMS (90.5 : ℚ) = (1, 30, 30) := by
      rw [toHMS_eq, hfl]
      decide
    simp only [entryLine, hh]
    decide
